import Mathlib

/-!
Verification of the LPC/LSP conversion core (`lsp.c`): `cheb_poly_eva`,
`lpc_to_lsp` and `lsp_to_lpc`.

The C code computes with `float`; the embedding idealises every floating-point
value as an exact rational (ℚ) and the transcendental conversion steps
(`acosf`, `cosf`) as the exact real functions `Real.arccos` / `Real.cos`.
`acosf` is undefined (NaN) outside `[-1, 1]`; the embedding models it as an
`Option ℝ` that is `none` there.  Loops whose C termination depends on runtime
values take an explicit fuel argument; the fuel supplied by the entry points
(`gridFuel`) is proved large enough for every positive grid step `delta`.

The rational arithmetic of the `Rat` type is unsealed so that concrete runs of
the model reduce inside the kernel.
-/

set_option allowUnsafeReducibility true in
attribute [semireducible] Rat.add Rat.mul Rat.sub Rat.inv Rat.ofScientific

set_option maxRecDepth 1000000

namespace Codec2

/-! ## Chebyshev evaluation (`cheb_poly_eva`, lsp.c lines 89-122) -/

/-- Mathematical Chebyshev recurrence T_0 = 1, T_1 = x, T_i = 2x T_{i-1} - T_{i-2};
used as the specification side of claim C8. -/
def chebT : ℕ → ℚ → ℚ
  | 0, _ => 1
  | 1, x => x
  | n + 2, x => 2 * x * chebT (n + 1) x - chebT n x

/-- The T buffer of `cheb_poly_eva`, built iteratively exactly as the C loop
fills `T[0..order/2]` (`T[0]=1`, `T[1]=x`, then `T[i]=2*x*T[i-1]-T[i-2]`),
kept in reverse order (most recent entry first, as the C write pointer sees it). -/
def revT (x : ℚ) : ℕ → List ℚ
  | 0 => [1]
  | 1 => [x, 1]
  | n + 2 =>
    let l := revT x (n + 1)
    (2 * x * l.getD 0 0 - l.getD 1 0) :: l

/-- The summation loop of `cheb_poly_eva`:
`sum += coef[(order/2)-i] * T[i]` for `i = 0..j`. -/
def chebSum (coef T : List ℚ) (m : ℕ) : ℕ → ℚ
  | 0 => coef.getD m 0 * T.getD 0 0
  | i + 1 => chebSum coef T m i + coef.getD (m - (i + 1)) 0 * T.getD (i + 1) 0

/-- `cheb_poly_eva(coef, x, order)` (lsp.c lines 89-122): fill the buffer of
Chebyshev values iteratively, then accumulate `coef[(order/2)-i] * T[i]`. -/
def cheb_poly_eva (coef : List ℚ) (x : ℚ) (order : ℕ) : ℚ :=
  let m := order / 2
  chebSum coef (revT x m).reverse m m

/-! ### Bounds-checked variant (for claim C10)

Same computation with every buffer write and array read made total through
`Option`: a write or read outside the buffer returns `none`. -/

/-- Bounds-checked list write. -/
def setO (l : List ℚ) (i : ℕ) (v : ℚ) : Option (List ℚ) :=
  if i < l.length then some (l.set i v) else none

/-- The buffer-filling loop of `cheb_poly_eva` with checked reads and writes:
starting at index `i` with `c` iterations left, `T[i] = 2*x*T[i-1] - T[i-2]`. -/
def chebBufLoop (x : ℚ) : List ℚ → ℕ → ℕ → Option (List ℚ)
  | T, _, 0 => some T
  | T, i, c + 1 =>
    (T.get? (i - 1)).bind fun u =>
      (T.get? (i - 2)).bind fun t =>
        (setO T i (2 * x * u - t)).bind fun T' => chebBufLoop x T' (i + 1) c

/-- The summation loop of `cheb_poly_eva` with checked reads. -/
def chebSumLoop (coef T : List ℚ) (m : ℕ) : ℚ → ℕ → ℕ → Option ℚ
  | acc, _, 0 => some acc
  | acc, i, c + 1 =>
    (coef.get? (m - i)).bind fun cv =>
      (T.get? i).bind fun tv => chebSumLoop coef T m (acc + cv * tv) (i + 1) c

/-- `cheb_poly_eva` with every array access bounds-checked: the scratch buffer
has `order/2 + 1` cells (as allocated by the C code), `T[0] := 1` and
`T[1] := x` are written unconditionally (the C code writes both before the
loop), then the recurrence loop runs for `i = 2..order/2` and the sum loop
reads `coef[(order/2)-i]` and `T[i]` for `i = 0..order/2`. -/
def cheb_poly_eva_checked (coef : List ℚ) (x : ℚ) (order : ℕ) : Option ℚ :=
  let m := order / 2
  (setO (List.replicate (m + 1) 0) 0 1).bind fun T0 =>
    (setO T0 1 x).bind fun T1 =>
      (chebBufLoop x T1 2 (m - 1)).bind fun T =>
        chebSumLoop coef T m 0 0 (m + 1)

/-! ## Polynomial decomposition (lsp.c lines 161-186) -/

/-- Forward construction of the (pre-doubling) `P'` coefficients:
`P[0] = 1`, `P[i] = a[i] + a[order+1-i] - P[i-1]`. -/
def pBuild (a : List ℚ) (order : ℕ) : ℕ → List ℚ
  | 0 => [1]
  | i + 1 =>
    let l := pBuild a order i
    l ++ [a.getD (i + 1) 0 + a.getD (order - i) 0 - l.getD i 0]

/-- Forward construction of the (pre-doubling) `Q'` coefficients:
`Q[0] = 1`, `Q[i] = a[i] - a[order+1-i] + Q[i-1]`. -/
def qBuild (a : List ℚ) (order : ℕ) : ℕ → List ℚ
  | 0 => [1]
  | i + 1 =>
    let l := qBuild a order i
    l ++ [a.getD (i + 1) 0 - a.getD (order - i) 0 + l.getD i 0]

/-- The doubling loop (lsp.c lines 178-183): every entry except the last is
multiplied by 2. -/
def doubleInit : List ℚ → List ℚ
  | [] => []
  | [x] => [x]
  | x :: y :: r => 2 * x :: doubleInit (y :: r)

/-- The `P'` polynomial handed to the root search. -/
def pPoly (a : List ℚ) (order : ℕ) : List ℚ :=
  doubleInit (pBuild a order (order / 2))

/-- The `Q'` polynomial handed to the root search. -/
def qPoly (a : List ℚ) (order : ℕ) : List ℚ :=
  doubleInit (qBuild a order (order / 2))

/-! ## Root search (lsp.c lines 189-233) -/

/-- State of the root search: current interval ends `xl`, `xr`, the output
array `freq` (the C caller's buffer, taken as all zeros initially) and the
count of roots found. -/
structure SearchState where
  xl : ℚ
  xr : ℚ
  freq : List ℚ
  roots : ℕ
deriving DecidableEq

/-- The bisection refinement loop (lsp.c lines 208-218), one constructor case
per executed iteration: `xm = (xl+xr)/2`; if `psumm*psuml > 0` move `xl` up to
`xm` (taking `psuml := psumm`), otherwise move `xr` down to `xm`
(taking `psumr := psumm`).  Returns the final `(xm, xl, xr)`. -/
def refineLoop (pt : List ℚ) (order : ℕ) :
    ℚ → ℚ → ℚ → ℚ → ℚ → ℕ → ℚ × ℚ × ℚ
  | _, _, xl, xr, xm, 0 => (xm, xl, xr)
  | psuml, psumr, xl, xr, _, k + 1 =>
    let xm := (xl + xr) / 2
    let psumm := cheb_poly_eva pt xm order
    if psumm * psuml > 0 then refineLoop pt order psumm psumr xm xr xm k
    else refineLoop pt order psuml psumm xl xm xm k

/-- The grid-search loop for one root index `j` (lsp.c lines 199-227):
while `flag && xr >= -1.0`, step `xr := xl - delta`, evaluate, and either
bisect (a bracket: `psumr*psuml < 0` or `psumr == 0`), recording
`freq[j] := xm` and setting `xl := xm`, or walk the grid (`psuml := psumr`,
`xl := xr`).  The second component counts the executed grid steps.
The fuel argument only bounds the recursion; `gridFuel` below is proved
sufficient for every `delta > 0`. -/
def gridLoop (pt : List ℚ) (order nb : ℕ) (delta : ℚ) (j : ℕ) :
    ℚ → SearchState → ℕ → SearchState × ℕ
  | _, s, 0 => (s, 0)
  | psuml, s, fuel + 1 =>
    if s.xr < -1 then (s, 0)
    else
      let xr := s.xl - delta
      let psumr := cheb_poly_eva pt xr order
      if psumr * psuml < 0 ∨ psumr = 0 then
        let r := refineLoop pt order psuml psumr s.xl xr 0 (nb + 1)
        (⟨r.1, r.2.2, s.freq.set j r.1, s.roots + 1⟩, 1)
      else
        let r := gridLoop pt order nb delta j psumr ⟨xr, xr, s.freq, s.roots⟩ fuel
        (r.1, r.2 + 1)

/-- Fuel supplied to each grid search; proved below to exceed the
largest possible number of grid steps whenever `delta > 0`. -/
def gridFuel (delta : ℚ) : ℕ :=
  (⌊(2 : ℚ) / delta⌋).toNat + 2

/-- The outer root loop (lsp.c lines 192-228): for `j = 0..order-1` choose
`Q'` when `j` is odd and `P'` when `j` is even, evaluate at `xl`, and run the
grid search.  Also returns the list of grid-step counts, one per `j`. -/
def outerLoop (P Q : List ℚ) (order nb : ℕ) (delta : ℚ) (fuel : ℕ) :
    SearchState → ℕ → ℕ → SearchState × List ℕ
  | s, _, 0 => (s, [])
  | s, j, n + 1 =>
    let pt := if j % 2 = 1 then Q else P
    let psuml := cheb_poly_eva pt s.xl order
    let g := gridLoop pt order nb delta j psuml s fuel
    let r := outerLoop P Q order nb delta fuel g.1 (j + 1) n
    (r.1, g.2 :: r.2)

/-- One complete run of the search phase of `lpc_to_lsp` (everything before
the radian conversion): decompose, then search from `xl = 1`, `xr = 0` with
the caller's `freq` buffer taken as zeros. -/
def lpc_to_lsp_run (a : List ℚ) (order nb : ℕ) (delta : ℚ) :
    SearchState × List ℕ :=
  outerLoop (pPoly a order) (qPoly a order) order nb delta (gridFuel delta)
    ⟨1, 0, List.replicate order 0, 0⟩ 0 order

/-- The x-domain result of `lpc_to_lsp`: the `freq` buffer before the final
`acosf` conversion, and the returned root count. -/
def lpc_to_lsp_x (a : List ℚ) (order nb : ℕ) (delta : ℚ) : List ℚ × ℕ :=
  ((lpc_to_lsp_run a order nb delta).1.freq, (lpc_to_lsp_run a order nb delta).1.roots)

/-- `acosf` (lsp.c line 232): the C library inverse cosine, defined only on
`[-1, 1]` (NaN outside, modelled as `none`); no clamping is performed. -/
noncomputable def acosF (q : ℚ) : Option ℝ :=
  if -1 ≤ q ∧ q ≤ 1 then some (Real.arccos q) else none

/-- `lpc_to_lsp(a, order, freq, nb, delta)` (lsp.c lines 134-238): the final
`freq` buffer after `freq[i] = acosf(freq[i])` for `i = 0..order-1`, plus the
returned root count. -/
noncomputable def lpc_to_lsp (a : List ℚ) (order nb : ℕ) (delta : ℚ) :
    List (Option ℝ) × ℕ :=
  ((lpc_to_lsp_x a order nb delta).1.map acosF, (lpc_to_lsp_x a order nb delta).2)

/-- Modelled from the spec (RootFinder step 5): the bracketed interval is
bisected a given number of times, each iteration halving toward the
sub-interval preserving the sign change; the result is the last midpoint. -/
def bisect_spec (pt : List ℚ) (order : ℕ) : ℚ → ℚ → ℚ → ℚ → ℕ → ℚ
  | _, _, _, xm, 0 => xm
  | psuml, xl, xr, _, k + 1 =>
    let xm := (xl + xr) / 2
    let psumm := cheb_poly_eva pt xm order
    if psumm * psuml > 0 then bisect_spec pt order psumm xm xr xm k
    else bisect_spec pt order psuml xl xm xm k

/-- Modelled from the spec (RootFinder step 8): inverse cosine with the
argument clamped to `[-1, 1]` against rounding. -/
noncomputable def acosClamp (q : ℚ) : ℝ :=
  Real.arccos (max (-1) (min 1 (q : ℝ)))

/-! ## LSP to LPC reconstruction (`lsp_to_lpc`, lsp.c lines 251-311) -/

section Cascade

variable {K : Type} [Field K]

/-- One cascade stage (lsp.c lines 286-299): read the four state slots
`n1..n4` of stage `i`, form the two second-order outputs, shift the state and
propagate `xin1, xin2`. -/
def stage (fx : List K) (s : List K × K × K) (i : ℕ) : List K × K × K :=
  let n1 := s.1.getD (4 * i) 0
  let n2 := s.1.getD (4 * i + 1) 0
  let n3 := s.1.getD (4 * i + 2) 0
  let n4 := s.1.getD (4 * i + 3) 0
  let xout1 := s.2.1 - 2 * fx.getD (2 * i) 0 * n1 + n2
  let xout2 := s.2.2 - 2 * fx.getD (2 * i + 1) 0 * n3 + n4
  ((((s.1.set (4 * i + 1) n1).set (4 * i + 3) n3).set (4 * i) s.2.1).set
      (4 * i + 2) s.2.2,
    xout1, xout2)

/-- One outer iteration of `lsp_to_lpc` (lsp.c lines 285-307): run the
`order/2` cascade stages, combine with the two trailing delay slots, emit
`ak[j] = 0.5*(xout1+xout2)`, store `xin1, xin2` into the trailing slots and
reset both accumulators to 0.  The trailing slots sit at buffer indices
`4*(order/2)` and `4*(order/2)+1` (the C code reaches them through the last
stage's `n4` pointer, which requires at least one stage, i.e. `order ≥ 2`). -/
def outerStep (fx : List K) (order : ℕ) (s : List K × K × K) :
    (List K × K × K) × K :=
  let t := (List.range (order / 2)).foldl (stage fx) s
  let xout1 := t.2.1 + t.1.getD (4 * (order / 2)) 0
  let xout2 := t.2.2 - t.1.getD (4 * (order / 2) + 1) 0
  let ak := (xout1 + xout2) * (1 / 2)
  (((t.1.set (4 * (order / 2)) t.2.1).set (4 * (order / 2) + 1) t.2.2, 0, 0), ak)

/-- The cascade state at the start of outer iteration `j` of `lsp_to_lpc`:
the zeroed buffer with `xin1 = xin2 = 1` for `j = 0`, and the result of `j`
outer iterations afterwards. -/
def outerIter (fx : List K) (order : ℕ) : ℕ → List K × K × K
  | 0 => (List.replicate (4 * (order / 2) + 2) 0, 1, 1)
  | j + 1 => (outerStep fx order (outerIter fx order j)).1

/-- Collect the outputs of `n` outer iterations starting from state `s`. -/
def cascadeGo (fx : List K) (order : ℕ) : (List K × K × K) → ℕ → List K
  | _, 0 => []
  | s, n + 1 =>
    let r := outerStep fx order s
    r.2 :: cascadeGo fx order r.1 n

/-- The full impulse-response computation of `lsp_to_lpc` on x-domain inputs:
`order + 1` outer iterations from the zeroed buffer with both accumulators 1. -/
def cascade (fx : List K) (order : ℕ) : List K :=
  cascadeGo fx order (List.replicate (4 * (order / 2) + 2) 0, 1, 1) (order + 1)

end Cascade

/-- `lsp_to_lpc` restricted to the x-domain (after `freq[i] = cosf(lsp[i])`). -/
def lsp_to_lpc_x (fx : List ℚ) (order : ℕ) : List ℚ :=
  cascade fx order

/-- `lsp_to_lpc(lsp, ak, order)` (lsp.c lines 251-311): convert the radian
inputs with `cos` and run the cascade; the result is the `ak` buffer. -/
noncomputable def lsp_to_lpc (lsp : List ℝ) (order : ℕ) : List ℝ :=
  cascade (lsp.map Real.cos) order

/-- Embedding of the exact rational values into ℝ (used to relate the
rational model of the cascade to its real-valued run). -/
def qr : ℚ → ℝ := fun q => (q : ℝ)

/-- Embedding of a rational cascade state into a real cascade state. -/
def castS (s : List ℚ × ℚ × ℚ) : List ℝ × ℝ × ℝ :=
  (s.1.map qr, qr s.2.1, qr s.2.2)

end Codec2

namespace Codec2

/-! ## Concrete runs of the model (shared evaluation lemmas) -/

theorem eval_run_A :
    lpc_to_lsp_x [1, 9/5, 3/5] 2 2 (1/2) = ([-11/16, -9/8], 2) := by decide

theorem eval_run_B :
    lpc_to_lsp_x [1, 3/4, 17/20] 2 1 (1/2) = ([-3/8, -1/2], 2) := by decide

theorem eval_run_C :
    lpc_to_lsp_x [1, 1, 0, 1/2] 3 0 (1/2) = ([-1/4, -1/2, 0], 2) := by decide

theorem eval_run_D :
    (lpc_to_lsp_run [1, 10, 0] 2 0 2).2 = [2, 0] := by decide

theorem eval_run_W :
    lpc_to_lsp_x [1, 1, 1/2] 2 0 (1/2) = ([-1/4, -1/2], 2) := by decide

theorem eval_acos_entry :
    (lpc_to_lsp [1, 9/5, 3/5] 2 2 (1/2)).1.getD 1 (some 0) = none := by
  show ((lpc_to_lsp_x [1, 9/5, 3/5] 2 2 (1/2)).1.map acosF).getD 1 (some 0) = none
  rw [eval_run_A]
  show acosF (-9/8) = none
  unfold acosF
  rw [if_neg]
  rintro ⟨h1, -⟩
  norm_num at h1

end Codec2

namespace Codec2

/-! ## Claim C3: bisection iteration count -/

/-- Claim C3 (counterexample): with `nb = 1` the recorded root is not the
result of bisecting the detected bracket `nb` times — the code's inner loop
`for (k = 0; k <= nb; k++)` runs `nb + 1` iterations.  For the order-2 input
`[1, 3/4, 17/20]` with `delta = 1/2`, the bracket for root 0 is
`[xl, xr] = [0, -1/2]` with `psuml = 3/5`; one bisection gives `-1/4`, while
the code records `-3/8`. -/
theorem bisection_count_counterexample :
    (lpc_to_lsp_x [1, 3/4, 17/20] 2 1 (1/2)).1.getD 0 0 = -3/8 ∧
    bisect_spec (pPoly [1, 3/4, 17/20] 2) 2 (3/5) 0 (0 - 1/2) 0 1 = -1/4 ∧
    (lpc_to_lsp_x [1, 3/4, 17/20] 2 1 (1/2)).1.getD 0 0 ≠
      bisect_spec (pPoly [1, 3/4, 17/20] 2) 2 (3/5) 0 (0 - 1/2) 0 1 := by
  refine ⟨?_, ?_, ?_⟩
  · rw [eval_run_B]; decide
  · decide
  · rw [eval_run_B]; decide

/-- Claim C3 (amended): when a sign-change bracket is detected the interval is
bisected exactly `nb + 1` times (the loop runs `k = 0..nb` inclusive): the
code's refinement loop agrees with the spec's bisection iterated `nb + 1`
times, and on a detected bracket the grid loop records exactly that value. -/
theorem bisection_count_amended :
    (∀ (pt : List ℚ) (order n : ℕ) (psuml psumr xl xr xm : ℚ),
      (refineLoop pt order psuml psumr xl xr xm n).1 =
        bisect_spec pt order psuml xl xr xm n) ∧
    (∀ (pt : List ℚ) (order nb : ℕ) (delta : ℚ) (j : ℕ) (psuml : ℚ)
      (s : SearchState) (fuel : ℕ),
      ¬ s.xr < -1 →
      (cheb_poly_eva pt (s.xl - delta) order * psuml < 0 ∨
        cheb_poly_eva pt (s.xl - delta) order = 0) →
      (gridLoop pt order nb delta j psuml s (fuel + 1)).1.freq =
        s.freq.set j (bisect_spec pt order psuml s.xl (s.xl - delta) 0 (nb + 1))) := by
  have key : ∀ (pt : List ℚ) (order n : ℕ) (psuml psumr xl xr xm : ℚ),
      (refineLoop pt order psuml psumr xl xr xm n).1 =
        bisect_spec pt order psuml xl xr xm n := by
    intro pt order n
    induction n with
    | zero => intro psuml psumr xl xr xm; rfl
    | succ k ih =>
      intro psuml psumr xl xr xm
      simp only [refineLoop, bisect_spec]
      split
      · exact ih _ _ _ _ _
      · exact ih _ _ _ _ _
  refine ⟨key, ?_⟩
  intro pt order nb delta j psuml s fuel h1 h2
  simp only [gridLoop]
  rw [if_neg h1, if_pos h2]
  exact congrArg (s.freq.set j ·)
    (key pt order (nb + 1) psuml (cheb_poly_eva pt (s.xl - delta) order)
      s.xl (s.xl - delta) 0)

/-- Witness for the amended C3 theorem: the bracket detected for the input
`[1, 3/4, 17/20]` at state `xl = 0`, `xr = 0`. -/
theorem bisection_count_amended_witness :
    (gridLoop (pPoly [1, 3/4, 17/20] 2) 2 1 (1/2) 0 (3/5)
        ⟨0, 0, [0, 0], 0⟩ (2 + 1)).1.freq =
      ([0, 0] : List ℚ).set 0
        (bisect_spec (pPoly [1, 3/4, 17/20] 2) 2 (3/5) 0 (0 - 1/2) 0 (1 + 1)) :=
  bisection_count_amended.2 (pPoly [1, 3/4, 17/20] 2) 2 1 (1/2) 0 (3/5)
    ⟨0, 0, [0, 0], 0⟩ 2 (by decide) (by decide)

/-! ## Claim C4: the accumulators of `lsp_to_lpc` -/

/-- Claim C4 (counterexample): the two accumulators do not hold 1.0 at the
start of every outer iteration: at the start of iteration 1 (input
`lsp`-cosines `[0, 0]`, order 2) both hold 0, because lines 305-306 reset them
to 0 at the end of every outer iteration. -/
theorem accumulator_reset_counterexample :
    (outerIter ([0, 0] : List ℚ) 2 1).2 = (0, 0) ∧
    ((0 : ℚ), (0 : ℚ)) ≠ ((1 : ℚ), (1 : ℚ)) := by
  exact ⟨by decide, by decide⟩

/-- Claim C4 (amended): `xin1 = xin2 = 1` holds at the start of the first
outer iteration only; at the start of every later iteration both hold 0. -/
theorem accumulator_reset_amended :
    ∀ (fx : List ℚ) (order : ℕ),
      (outerIter fx order 0).2 = (1, 1) ∧
      ∀ j, 1 ≤ j → (outerIter fx order j).2 = (0, 0) := by
  intro fx order
  refine ⟨rfl, ?_⟩
  intro j hj
  obtain ⟨k, rfl⟩ : ∃ k, j = k + 1 := ⟨j - 1, by omega⟩
  rfl

/-- Witness for the amended C4 theorem at `fx = [0,0]`, `order = 2`, `j = 1`. -/
theorem accumulator_reset_amended_witness :
    (outerIter ([0, 0] : List ℚ) 2 1).2 = (0, 0) :=
  (accumulator_reset_amended [0, 0] 2).2 1 (le_refl 1)

/-! ## Claim C6: no rejection of odd order -/

/-- Claim C6 (counterexample): `lpc_to_lsp` performs no input validation.  An
odd order is not rejected before computation: the order-3 input
`[1, 1, 0, 1/2]` is processed normally (two roots are found and returned, and
the output buffer is written). -/
theorem odd_order_rejection_counterexample :
    ¬ ∀ (a : List ℚ) (order nb : ℕ) (delta : ℚ), ¬ Even order →
        lpc_to_lsp_x a order nb delta = (List.replicate order 0, 0) := by
  intro h
  have h3 := h [1, 1, 0, 1/2] 3 0 (1/2) (by decide)
  rw [eval_run_C] at h3
  exact absurd h3 (by decide)

/-- Claim C6 (amended): odd orders are processed, not rejected: the search
runs with `m = order / 2` truncated and the return value is the ordinary root
count (the only error return of the C function, -1, is reserved for
allocation failure).  Concretely, order 3 yields two roots. -/
theorem odd_order_processed :
    lpc_to_lsp_x [1, 1, 0, 1/2] 3 0 (1/2) = ([-1/4, -1/2, 0], 2) :=
  eval_run_C

/-! ## Claim C9 counterexample: the grid-step bound -/

/-- Claim C9 (counterexample): the inner grid search is not bounded by
`⌈2/delta⌉` steps per alternation: with `delta = 2` and the rootless input
`[1, 10, 0]`, alternation 0 performs 2 grid steps while `⌈2/delta⌉ = 1`. -/
theorem grid_step_bound_counterexample :
    (lpc_to_lsp_run [1, 10, 0] 2 0 2).2.getD 0 0 = 2 ∧
    ¬ ((lpc_to_lsp_run [1, 10, 0] 2 0 2).2.getD 0 0 ≤ (⌈(2 : ℚ) / 2⌉).toNat) := by
  have h2 : (⌈(2 : ℚ) / 2⌉).toNat = 1 := by norm_num
  rw [eval_run_D, h2]
  exact ⟨rfl, by decide⟩

/-! ## Claim C10: bounds of `cheb_poly_eva` -/

/-- An in-bounds checked write succeeds. -/
theorem setO_pos (l : List ℚ) (i : ℕ) (v : ℚ) (h : i < l.length) :
    setO l i v = some (l.set i v) := by
  unfold setO
  rw [if_pos h]

/-- Every write of `chebBufLoop` stays in bounds when `i + c ≤ T.length` and
the buffer length is preserved. -/
theorem chebBufLoop_some (x : ℚ) :
    ∀ (c i : ℕ) (T : List ℚ), i + c ≤ T.length →
      ∃ T', chebBufLoop x T i c = some T' ∧ T'.length = T.length := by
  intro c
  induction c with
  | zero => exact fun i T _ => ⟨T, rfl, rfl⟩
  | succ c ih =>
    intro i T hc
    have hi : i < T.length := by omega
    have hu : i - 1 < T.length := by omega
    have ht : i - 2 < T.length := by omega
    obtain ⟨T', hT', hlen⟩ :=
      ih (i + 1) (T.set i (2 * x * (T.get ⟨i - 1, hu⟩) - T.get ⟨i - 2, ht⟩))
        (by rw [List.length_set]; omega)
    refine ⟨T', ?_, by rw [hlen, List.length_set]⟩
    rw [chebBufLoop, List.get?_eq_get hu, List.get?_eq_get ht]
    show (setO T i _).bind _ = _
    rw [setO, if_pos hi]
    exact hT'

/-- Every read of `chebSumLoop` stays in bounds when `m < coef.length` and
`i + c ≤ T.length`. -/
theorem chebSumLoop_some (coef T : List ℚ) (m : ℕ) (hm : m < coef.length) :
    ∀ (c : ℕ) (acc : ℚ) (i : ℕ), i + c ≤ T.length →
      ∃ v, chebSumLoop coef T m acc i c = some v := by
  intro c
  induction c with
  | zero => exact fun acc i _ => ⟨acc, rfl⟩
  | succ c ih =>
    intro acc i hc
    have hcv : m - i < coef.length := by omega
    have htv : i < T.length := by omega
    obtain ⟨v, hv⟩ := ih (acc + coef.get ⟨m - i, hcv⟩ * T.get ⟨i, htv⟩) (i + 1) (by omega)
    refine ⟨v, ?_⟩
    rw [chebSumLoop, List.get?_eq_get hcv, List.get?_eq_get htv]
    exact hv

/-- Claim C10: for even `order ≥ 2` and a coefficient array of the documented
length `order/2 + 1`, every array access of `cheb_poly_eva` is in bounds (the
bounds-checked variant never returns `none`); and the hypothesis `order ≥ 2`
is necessary: for `order = 0` the unconditional write of `T[1]` misses the
one-cell scratch buffer, so the checked variant returns `none`. -/
theorem cheb_poly_eva_inbounds :
    (∀ (coef : List ℚ) (x : ℚ) (order : ℕ), Even order → 2 ≤ order →
      coef.length = order / 2 + 1 →
      ∃ v, cheb_poly_eva_checked coef x order = some v) ∧
    (∀ (coef : List ℚ) (x : ℚ), cheb_poly_eva_checked coef x 0 = none) := by
  constructor
  · intro coef x order _ h2 hlen
    have hm : 1 ≤ order / 2 := Nat.le_div_iff_mul_le (by omega) |>.mpr (by omega)
    have hrep : (List.replicate (order / 2 + 1) (0 : ℚ)).length = order / 2 + 1 := by
      simp
    have hlen0 : ((List.replicate (order / 2 + 1) (0 : ℚ)).set 0 1).length
        = order / 2 + 1 := by rw [List.length_set, hrep]
    have hlen1 : ((((List.replicate (order / 2 + 1) (0 : ℚ)).set 0 1)).set 1 x).length
        = order / 2 + 1 := by rw [List.length_set, hlen0]
    obtain ⟨T, hT, hTlen⟩ :=
      chebBufLoop_some x (order / 2 - 1) 2 _ (by rw [hlen1]; omega)
    obtain ⟨v, hv⟩ :=
      chebSumLoop_some coef T (order / 2) (by omega) (order / 2 + 1) 0 0
        (by rw [hTlen, hlen1]; omega)
    refine ⟨v, ?_⟩
    show (setO (List.replicate (order / 2 + 1) 0) 0 1).bind (fun T0 =>
        (setO T0 1 x).bind fun T1 =>
          (chebBufLoop x T1 2 (order / 2 - 1)).bind fun T =>
            chebSumLoop coef T (order / 2) 0 0 (order / 2 + 1)) = some v
    rw [setO_pos _ _ _ (by rw [hrep]; omega), Option.some_bind,
      setO_pos _ _ _ (by rw [hlen0]; omega), Option.some_bind, hT,
      Option.some_bind, hv]
  · intro coef x
    rfl

/-- Witness for claim C10 at `order = 2`, `coef = [1, 1]`, `x = 0`. -/
theorem cheb_poly_eva_inbounds_witness :
    ∃ v, cheb_poly_eva_checked [1, 1] 0 2 = some v :=
  cheb_poly_eva_inbounds.1 [1, 1] 0 2 (by decide) (by decide) (by decide)

end Codec2

namespace Codec2

/-! ## Claim C2 counterexample and claim C5 -/

/-- Claim C2 (counterexample): a full root set does not guarantee LSP values
in `(0, π)`.  For `[1, 9/5, 3/5]` with `nb = 2`, `delta = 1/2`, the search
returns `roots = order = 2` but records the x-domain value `-9/8 < -1` for
root 1, whose `acosf` image is undefined (NaN) rather than a value in
`(0, π)`. -/
theorem lsp_monotonicity_counterexample :
    (lpc_to_lsp_x [1, 9/5, 3/5] 2 2 (1/2)).2 = 2 ∧
    (lpc_to_lsp_x [1, 9/5, 3/5] 2 2 (1/2)).1.getD 1 0 < -1 ∧
    (lpc_to_lsp [1, 9/5, 3/5] 2 2 (1/2)).1.getD 1 (some 0) = none := by
  refine ⟨by rw [eval_run_A], by rw [eval_run_A]; decide, eval_acos_entry⟩

/-- Claim C5 (counterexample): the x-domain values recorded by `lpc_to_lsp`
are not converted through a clamped inverse cosine: the conversion of the run
on `[1, 9/5, 3/5]` differs from clamping followed by `arccos`, because entry 1
(`-9/8`) is converted by the unclamped `acosf`, which is undefined below -1,
while the clamped conversion would give `π`. -/
theorem radian_clamping_counterexample :
    (lpc_to_lsp [1, 9/5, 3/5] 2 2 (1/2)).1 ≠
      ((lpc_to_lsp_x [1, 9/5, 3/5] 2 2 (1/2)).1).map (fun q => some (acosClamp q)) := by
  intro hEq
  have h1 : ((lpc_to_lsp_x [1, 9/5, 3/5] 2 2 (1/2)).1.map
      (fun q => some (acosClamp q))).getD 1 (some 0) = none := by
    rw [← hEq]
    exact eval_acos_entry
  rw [eval_run_A] at h1
  simp at h1

/-- Claim C5 (amended): the recorded x-domain values are converted by the
unclamped `acosf`, which yields no radian value outside `[-1, 1]`; and
recorded values below -1 actually occur. -/
theorem radian_conversion_unclamped :
    (∀ (a : List ℚ) (order nb : ℕ) (delta : ℚ),
      (lpc_to_lsp a order nb delta).1 =
        ((lpc_to_lsp_x a order nb delta).1).map acosF) ∧
    (∀ q : ℚ, q < -1 ∨ 1 < q → acosF q = none) ∧
    (lpc_to_lsp_x [1, 9/5, 3/5] 2 2 (1/2)).1.getD 1 0 < -1 := by
  refine ⟨fun _ _ _ _ => rfl, ?_, by rw [eval_run_A]; decide⟩
  intro q hq
  unfold acosF
  rw [if_neg]
  rintro ⟨hl, hr⟩
  rcases hq with h | h
  · linarith
  · linarith

/-- Witness for the amended C5 theorem at the reachable out-of-range value. -/
theorem radian_conversion_unclamped_witness : acosF (-9/8) = none :=
  radian_conversion_unclamped.2.1 (-9/8) (Or.inl (by norm_num))

/-! ## Claim C8: `cheb_poly_eva` computes the Chebyshev series -/

theorem revT_length (x : ℚ) : ∀ n, (revT x n).length = n + 1
  | 0 => rfl
  | 1 => rfl
  | n + 2 => by
    simp only [revT]
    simp [revT_length x (n + 1)]

theorem revT_getD_low (x : ℚ) : ∀ n, (revT x n).getD 0 0 = chebT n x ∧
    (revT x n).getD 1 0 = (if n = 0 then 0 else chebT (n - 1) x)
  | 0 => ⟨rfl, rfl⟩
  | 1 => ⟨rfl, rfl⟩
  | n + 2 => by
    have ih := revT_getD_low x (n + 1)
    constructor
    · show 2 * x * (revT x (n + 1)).getD 0 0 - (revT x (n + 1)).getD 1 0 = chebT (n + 2) x
      rw [ih.1, ih.2]
      simp [chebT]
    · show (revT x (n + 1)).getD 0 0 = _
      rw [ih.1]
      simp

theorem revT_succ (x : ℚ) (n : ℕ) : revT x (n + 1) = chebT (n + 1) x :: revT x n := by
  cases n with
  | zero => rfl
  | succ k =>
    show (2 * x * (revT x (k + 1)).getD 0 0 - (revT x (k + 1)).getD 1 0) :: revT x (k + 1)
        = chebT (k + 2) x :: revT x (k + 1)
    have h := revT_getD_low x (k + 1)
    rw [h.1, h.2]
    simp [chebT]

theorem revT_reverse_getD (x : ℚ) : ∀ n i, i ≤ n →
    (revT x n).reverse.getD i 0 = chebT i x := by
  intro n
  induction n with
  | zero =>
    intro i hi
    have h0 : i = 0 := by omega
    subst h0
    rfl
  | succ k ih =>
    intro i hi
    rw [revT_succ, List.reverse_cons]
    rcases Nat.lt_or_ge i (k + 1) with h | h
    · rw [List.getD_append _ _ _ _ (by rw [List.length_reverse, revT_length]; exact h)]
      exact ih i (by omega)
    · have hik : i = k + 1 := by omega
      subst hik
      rw [List.getD_append_right _ _ _ _ (by rw [List.length_reverse, revT_length])]
      rw [List.length_reverse, revT_length]
      simp

theorem chebSum_eq (coef T : List ℚ) (m : ℕ) : ∀ j,
    chebSum coef T m j = ∑ i in Finset.range (j + 1), coef.getD (m - i) 0 * T.getD i 0 := by
  intro j
  induction j with
  | zero => simp [chebSum]
  | succ k ih => rw [chebSum, ih, ← Finset.sum_range_succ]

/-- Claim C8: `cheb_poly_eva coef x order` equals
`Σ_{i ≤ order/2} coef[order/2 - i] · T_i(x)` with the Chebyshev polynomials
`T_0 = 1`, `T_1 = x`, `T_i = 2x·T_{i-1} - T_{i-2}`; in particular, for
`order = 0` it returns `coef[0]` for every `x`. -/
theorem cheb_poly_eva_chebyshev_sum :
    (∀ (coef : List ℚ) (x : ℚ) (order : ℕ),
      cheb_poly_eva coef x order =
        ∑ i in Finset.range (order / 2 + 1), coef.getD (order / 2 - i) 0 * chebT i x) ∧
    (∀ (coef : List ℚ) (x : ℚ), cheb_poly_eva coef x 0 = coef.getD 0 0) := by
  have main : ∀ (coef : List ℚ) (x : ℚ) (order : ℕ),
      cheb_poly_eva coef x order =
        ∑ i in Finset.range (order / 2 + 1), coef.getD (order / 2 - i) 0 * chebT i x := by
    intro coef x order
    show chebSum coef (revT x (order / 2)).reverse (order / 2) (order / 2) = _
    rw [chebSum_eq]
    refine Finset.sum_congr rfl ?_
    intro i hi
    rw [revT_reverse_getD x (order / 2) i (Nat.lt_succ_iff.mp (Finset.mem_range.mp hi))]

  refine ⟨main, fun coef x => ?_⟩
  rw [main coef x 0]
  simp [chebT]

end Codec2

namespace Codec2

/-! ## Claim C7: the decomposition recurrences -/

theorem pBuild_length (a : List ℚ) (order : ℕ) : ∀ n, (pBuild a order n).length = n + 1
  | 0 => rfl
  | n + 1 => by
    simp only [pBuild]
    simp [pBuild_length a order n]

theorem qBuild_length (a : List ℚ) (order : ℕ) : ∀ n, (qBuild a order n).length = n + 1
  | 0 => rfl
  | n + 1 => by
    simp only [qBuild]
    simp [qBuild_length a order n]

theorem pBuild_getD_le (a : List ℚ) (order : ℕ) :
    ∀ m n, n ≤ m → ∀ i, i ≤ n →
      (pBuild a order m).getD i 0 = (pBuild a order n).getD i 0 := by
  intro m
  induction m with
  | zero =>
    intro n h i _
    have h0 : n = 0 := by omega
    subst h0
    rfl
  | succ k ih =>
    intro n h i hi
    rcases Nat.eq_or_lt_of_le h with he | hl
    · subst he; rfl
    · have hnk : n ≤ k := by omega
      simp only [pBuild]
      rw [List.getD_append _ _ _ _ (by rw [pBuild_length]; omega)]
      exact ih n hnk i hi

theorem qBuild_getD_le (a : List ℚ) (order : ℕ) :
    ∀ m n, n ≤ m → ∀ i, i ≤ n →
      (qBuild a order m).getD i 0 = (qBuild a order n).getD i 0 := by
  intro m
  induction m with
  | zero =>
    intro n h i _
    have h0 : n = 0 := by omega
    subst h0
    rfl
  | succ k ih =>
    intro n h i hi
    rcases Nat.eq_or_lt_of_le h with he | hl
    · subst he; rfl
    · have hnk : n ≤ k := by omega
      simp only [qBuild]
      rw [List.getD_append _ _ _ _ (by rw [qBuild_length]; omega)]
      exact ih n hnk i hi

theorem pBuild_getD_succ (a : List ℚ) (order n : ℕ) :
    (pBuild a order (n + 1)).getD (n + 1) 0 =
      a.getD (n + 1) 0 + a.getD (order - n) 0 - (pBuild a order n).getD n 0 := by
  simp only [pBuild]
  rw [List.getD_append_right _ _ _ _ (by rw [pBuild_length])]
  rw [pBuild_length]
  simp

theorem qBuild_getD_succ (a : List ℚ) (order n : ℕ) :
    (qBuild a order (n + 1)).getD (n + 1) 0 =
      a.getD (n + 1) 0 - a.getD (order - n) 0 + (qBuild a order n).getD n 0 := by
  simp only [qBuild]
  rw [List.getD_append_right _ _ _ _ (by rw [qBuild_length])]
  rw [qBuild_length]
  simp

theorem doubleInit_length : ∀ l : List ℚ, (doubleInit l).length = l.length
  | [] => rfl
  | [_] => rfl
  | _ :: y :: r => by
    simp only [doubleInit]
    simp [doubleInit_length (y :: r)]

theorem doubleInit_getD_lt : ∀ (l : List ℚ) (i : ℕ), i + 1 < l.length →
    (doubleInit l).getD i 0 = 2 * l.getD i 0
  | [], i, h => by simp at h
  | [x], i, h => by
    simp only [List.length_singleton] at h
    omega
  | x :: y :: r, 0, h => rfl
  | x :: y :: r, i + 1, h => by
    show (doubleInit (y :: r)).getD i 0 = 2 * (y :: r).getD i 0
    exact doubleInit_getD_lt (y :: r) i (by simp only [List.length_cons] at h ⊢; omega)

theorem doubleInit_getD_last : ∀ (l : List ℚ) (i : ℕ), i + 1 = l.length →
    (doubleInit l).getD i 0 = l.getD i 0
  | [], i, h => by simp at h
  | [x], 0, _ => rfl
  | [x], i + 1, h => by
    simp only [List.length_singleton] at h
    omega
  | x :: y :: r, 0, h => by
    simp only [List.length_cons] at h
    omega
  | x :: y :: r, i + 1, h => by
    show (doubleInit (y :: r)).getD i 0 = (y :: r).getD i 0
    exact doubleInit_getD_last (y :: r) i (by simp only [List.length_cons] at h ⊢; omega)

/-- Claim C7: for an LPC vector `a[0..order]` with even order, the pre-doubling
half-order arrays built by `lpc_to_lsp` satisfy `P'[0] = Q'[0] = 1`,
`P'[i] = a[i] + a[order+1-i] - P'[i-1]` and
`Q'[i] = a[i] - a[order+1-i] + Q'[i-1]` for `i = 1..order/2`, and the arrays
handed to the root search double every entry except the last. -/
theorem lpc_decompose_recurrence :
    ∀ (a : List ℚ) (order : ℕ), Even order → a.length = order + 1 →
      ((pBuild a order (order / 2)).getD 0 0 = 1 ∧
        (qBuild a order (order / 2)).getD 0 0 = 1) ∧
      (∀ i, 1 ≤ i → i ≤ order / 2 →
        (pBuild a order (order / 2)).getD i 0 =
          a.getD i 0 + a.getD (order + 1 - i) 0 -
            (pBuild a order (order / 2)).getD (i - 1) 0) ∧
      (∀ i, 1 ≤ i → i ≤ order / 2 →
        (qBuild a order (order / 2)).getD i 0 =
          a.getD i 0 - a.getD (order + 1 - i) 0 +
            (qBuild a order (order / 2)).getD (i - 1) 0) ∧
      (pPoly a order = doubleInit (pBuild a order (order / 2)) ∧
        qPoly a order = doubleInit (qBuild a order (order / 2))) ∧
      (∀ i, i < order / 2 →
        (pPoly a order).getD i 0 = 2 * (pBuild a order (order / 2)).getD i 0 ∧
        (qPoly a order).getD i 0 = 2 * (qBuild a order (order / 2)).getD i 0) ∧
      ((pPoly a order).getD (order / 2) 0 =
          (pBuild a order (order / 2)).getD (order / 2) 0 ∧
        (qPoly a order).getD (order / 2) 0 =
          (qBuild a order (order / 2)).getD (order / 2) 0) := by
  intro a order _ _
  refine ⟨⟨?_, ?_⟩, ?_, ?_, ⟨rfl, rfl⟩, ?_, ?_, ?_⟩
  · rw [pBuild_getD_le a order (order / 2) 0 (by omega) 0 (by omega)]; rfl
  · rw [qBuild_getD_le a order (order / 2) 0 (by omega) 0 (by omega)]; rfl
  · intro i h1 h2
    obtain ⟨k, rfl⟩ : ∃ k, i = k + 1 := ⟨i - 1, by omega⟩
    simp only [Nat.add_sub_cancel]
    rw [pBuild_getD_le a order (order / 2) (k + 1) (by omega) (k + 1) (by omega),
      pBuild_getD_succ,
      pBuild_getD_le a order (order / 2) k (by omega) k (by omega)]
    have he : order + 1 - (k + 1) = order - k := by omega
    rw [he]
  · intro i h1 h2
    obtain ⟨k, rfl⟩ : ∃ k, i = k + 1 := ⟨i - 1, by omega⟩
    simp only [Nat.add_sub_cancel]
    rw [qBuild_getD_le a order (order / 2) (k + 1) (by omega) (k + 1) (by omega),
      qBuild_getD_succ,
      qBuild_getD_le a order (order / 2) k (by omega) k (by omega)]
    have he : order + 1 - (k + 1) = order - k := by omega
    rw [he]
  · intro i hi
    constructor
    · exact doubleInit_getD_lt _ i (by rw [pBuild_length]; omega)
    · exact doubleInit_getD_lt _ i (by rw [qBuild_length]; omega)
  · exact doubleInit_getD_last _ _ (by rw [pBuild_length])
  · exact doubleInit_getD_last _ _ (by rw [qBuild_length])

/-- Witness for claim C7 at the order-2 input `[1, 1, 1/2]`. -/
theorem lpc_decompose_recurrence_witness :
    (pBuild [1, 1, 1/2] 2 1).getD 1 0 =
      (([1, 1, 1/2] : List ℚ).getD 1 0 + ([1, 1, 1/2] : List ℚ).getD (2 + 1 - 1) 0 -
        (pBuild [1, 1, 1/2] 2 1).getD 0 0) :=
  (lpc_decompose_recurrence [1, 1, 1/2] 2 (by decide) (by decide)).2.1 1
    (by decide) (by decide)

end Codec2

namespace Codec2

/-! ## Invariants of the root search -/

theorem getD_set_self (l : List ℚ) (j : ℕ) (v : ℚ) (h : j < l.length) :
    (l.set j v).getD j 0 = v := by
  rw [List.getD_eq_getD_get?, List.get?_set_eq_of_lt _ h]
  rfl

theorem getD_set_ne (l : List ℚ) (i j : ℕ) (v : ℚ) (h : i ≠ j) :
    (l.set j v).getD i 0 = l.getD i 0 := by
  rw [List.getD_eq_getD_get?, List.getD_eq_getD_get?,
    List.get?_set_ne _ _ (fun he => h he.symm)]

theorem getD_mem (l : List ℚ) (i : ℕ) (h : i < l.length) : l.getD i 0 ∈ l := by
  rw [List.getD_eq_getElem _ _ h]
  exact List.getElem_mem _

/-- The bisection result lies strictly below the incoming `xl` whenever the
incoming interval is nonempty and at least one iteration runs. -/
theorem refineLoop_lt (pt : List ℚ) (order : ℕ) :
    ∀ (n : ℕ) (psuml psumr xl xr xm : ℚ), xr < xl → 0 < n →
      (refineLoop pt order psuml psumr xl xr xm n).1 < xl := by
  intro n
  induction n with
  | zero =>
    intro psuml psumr xl xr xm _ h0
    omega
  | succ k ih =>
    intro psuml psumr xl xr xm h _
    have hmid : (xl + xr) / 2 < xl := by linarith
    have hmid2 : xr < (xl + xr) / 2 := by linarith
    simp only [refineLoop]
    split
    · rcases Nat.eq_zero_or_pos k with hk | hk
      · subst hk
        exact hmid
      · exact lt_trans (ih _ _ _ _ _ hmid2 hk) hmid
    · rcases Nat.eq_zero_or_pos k with hk | hk
      · subst hk
        exact hmid
      · exact ih _ _ _ _ _ hmid hk

/-- A grid search either leaves `freq` and `roots` unchanged while `xl` does
not increase, or records exactly one root `xm < xl` at index `j`, finishing
with `xl = xm`. -/
theorem gridLoop_cases (pt : List ℚ) (order nb : ℕ) (delta : ℚ) (j : ℕ)
    (hd : 0 < delta) :
    ∀ (fuel : ℕ) (psuml : ℚ) (s : SearchState),
      ((gridLoop pt order nb delta j psuml s fuel).1.freq = s.freq ∧
        (gridLoop pt order nb delta j psuml s fuel).1.roots = s.roots ∧
        (gridLoop pt order nb delta j psuml s fuel).1.xl ≤ s.xl) ∨
      (∃ xm, xm < s.xl ∧
        (gridLoop pt order nb delta j psuml s fuel).1.xl = xm ∧
        (gridLoop pt order nb delta j psuml s fuel).1.freq = s.freq.set j xm ∧
        (gridLoop pt order nb delta j psuml s fuel).1.roots = s.roots + 1) := by
  intro fuel
  induction fuel with
  | zero =>
    intro psuml s
    exact Or.inl ⟨rfl, rfl, le_refl _⟩
  | succ f ih =>
    intro psuml s
    simp only [gridLoop]
    split
    · exact Or.inl ⟨rfl, rfl, le_refl _⟩
    · split
      · refine Or.inr ⟨(refineLoop pt order psuml
          (cheb_poly_eva pt (s.xl - delta) order) s.xl (s.xl - delta) 0 (nb + 1)).1,
          ?_, rfl, rfl, rfl⟩
        exact refineLoop_lt pt order (nb + 1) _ _ _ _ _ (by linarith) (by omega)
      · rcases ih (cheb_poly_eva pt (s.xl - delta) order)
            ⟨s.xl - delta, s.xl - delta, s.freq, s.roots⟩ with
          ⟨h1, h2, h3⟩ | ⟨xm, hxm, h1, h2, h3⟩
        · have h3' : (gridLoop pt order nb delta j
              (cheb_poly_eva pt (s.xl - delta) order)
              ⟨s.xl - delta, s.xl - delta, s.freq, s.roots⟩ f).1.xl ≤ s.xl - delta := h3
          exact Or.inl ⟨h1, h2, by linarith⟩
        · have hxm' : xm < s.xl - delta := hxm
          exact Or.inr ⟨xm, by linarith, h1, h2, h3⟩

/-- The grid search never raises `xl`. -/
theorem gridLoop_xl_le (pt : List ℚ) (order nb : ℕ) (delta : ℚ) (j : ℕ)
    (hd : 0 < delta) (fuel : ℕ) (psuml : ℚ) (s : SearchState) :
    (gridLoop pt order nb delta j psuml s fuel).1.xl ≤ s.xl := by
  rcases gridLoop_cases pt order nb delta j hd fuel psuml s with
    ⟨-, -, h⟩ | ⟨xm, hxm, h, -, -⟩
  · exact h
  · rw [h]; exact le_of_lt hxm

/-- A grid search with `s.xr < -1` performs no steps. -/
theorem gridLoop_steps_zero (pt : List ℚ) (order nb : ℕ) (delta : ℚ) (j : ℕ) :
    ∀ (fuel : ℕ) (psuml : ℚ) (s : SearchState), s.xr < -1 →
      (gridLoop pt order nb delta j psuml s fuel).2 = 0 := by
  intro fuel
  cases fuel with
  | zero => intro psuml s _; rfl
  | succ f =>
    intro psuml s h
    simp only [gridLoop]
    rw [if_pos h]

/-- Grid-step count bound: starting from `xl`, at most `⌊(xl+1)/delta⌋ + 1`
steps run before the loop exits. -/
theorem gridLoop_steps_bound (pt : List ℚ) (order nb : ℕ) (delta : ℚ) (j : ℕ)
    (hd : 0 < delta) :
    ∀ (fuel : ℕ) (psuml : ℚ) (s : SearchState),
      (gridLoop pt order nb delta j psuml s fuel).2 ≤
        (⌊(s.xl + 1) / delta⌋).toNat + 1 := by
  intro fuel
  induction fuel with
  | zero =>
    intro psuml s
    exact Nat.zero_le _
  | succ f ih =>
    intro psuml s
    simp only [gridLoop]
    split
    · exact Nat.zero_le _
    · split
      · omega
      · rcases lt_or_le (s.xl - delta) (-1) with hlow | hhigh
        · have h0 : (gridLoop pt order nb delta j
              (cheb_poly_eva pt (s.xl - delta) order)
              ⟨s.xl - delta, s.xl - delta, s.freq, s.roots⟩ f).2 = 0 :=
            gridLoop_steps_zero pt order nb delta j f _ _ hlow
          rw [h0]
          omega
        · have ihb := ih (cheb_poly_eva pt (s.xl - delta) order)
            ⟨s.xl - delta, s.xl - delta, s.freq, s.roots⟩
          have hxl : ((⟨s.xl - delta, s.xl - delta, s.freq, s.roots⟩ :
              SearchState)).xl = s.xl - delta := rfl
          rw [hxl] at ihb
          have hrw : (s.xl - delta + 1) / delta = (s.xl + 1) / delta - 1 := by
            field_simp
            ring
          have hfloor : ⌊(s.xl - delta + 1) / delta⌋ = ⌊(s.xl + 1) / delta⌋ - 1 := by
            rw [hrw, Int.floor_sub_one]
          have hge : 1 ≤ ⌊(s.xl + 1) / delta⌋ := by
            rw [Int.le_floor]
            push_cast
            rw [le_div_iff hd]
            linarith
          rw [hfloor] at ihb
          omega

/-- All alternations: one step count per root index, each bounded by
`⌊2/delta⌋ + 1`, as long as the search starts at `xl ≤ 1`. -/
theorem outerLoop_steps (P Q : List ℚ) (order nb : ℕ) (delta : ℚ) (fuel : ℕ)
    (hd : 0 < delta) :
    ∀ (n j : ℕ) (s : SearchState), s.xl ≤ 1 →
      (outerLoop P Q order nb delta fuel s j n).2.length = n ∧
      ∀ c ∈ (outerLoop P Q order nb delta fuel s j n).2,
        c ≤ (⌊(2 : ℚ) / delta⌋).toNat + 1 := by
  intro n
  induction n with
  | zero =>
    intro j s _
    exact ⟨rfl, fun c hc => absurd hc (List.not_mem_nil c)⟩
  | succ n ih =>
    intro j s hxl
    have hnext : ((gridLoop (if j % 2 = 1 then Q else P) order nb delta j
        (cheb_poly_eva (if j % 2 = 1 then Q else P) s.xl order) s fuel).1).xl ≤ 1 :=
      le_trans (gridLoop_xl_le _ order nb delta j hd fuel _ s) hxl
    have ihr := ih (j + 1) _ hnext
    have hstep : (gridLoop (if j % 2 = 1 then Q else P) order nb delta j
        (cheb_poly_eva (if j % 2 = 1 then Q else P) s.xl order) s fuel).2 ≤
        (⌊(2 : ℚ) / delta⌋).toNat + 1 := by
      refine le_trans (gridLoop_steps_bound _ order nb delta j hd fuel _ s) ?_
      have hmono : ⌊(s.xl + 1) / delta⌋ ≤ ⌊(2 : ℚ) / delta⌋ :=
        Int.floor_le_floor (by rw [div_le_div_iff_of_pos_right hd]; linarith)
      omega
    constructor
    · show ((gridLoop _ order nb delta j _ s fuel).2 ::
        (outerLoop P Q order nb delta fuel _ (j + 1) n).2).length = n + 1
      rw [List.length_cons, ihr.1]
    · intro c hc
      rcases List.mem_cons.mp hc with he | hm
      · omega
      · exact ihr.2 c hm

end Codec2

namespace Codec2

/-- Claim C9 (amended): for every `delta > 0` the search terminates with
exactly `order` outer iterations (one grid-step count per root index), and the
inner grid search performs at most `⌊2/delta⌋ + 1` steps per alternation
(`⌈2/delta⌉` does not bound it when `delta` divides 2); each bisection
refinement performs exactly `nb + 1` iterations (claim C3). -/
theorem grid_step_bound :
    ∀ (a : List ℚ) (order nb : ℕ) (delta : ℚ), 0 < delta →
      (lpc_to_lsp_run a order nb delta).2.length = order ∧
      ∀ c ∈ (lpc_to_lsp_run a order nb delta).2,
        c ≤ (⌊(2 : ℚ) / delta⌋).toNat + 1 := by
  intro a order nb delta hd
  exact outerLoop_steps (pPoly a order) (qPoly a order) order nb delta
    (gridFuel delta) hd order 0 ⟨1, 0, List.replicate order 0, 0⟩ (le_refl 1)

/-- Witness for the amended C9 theorem at the `delta = 2` run. -/
theorem grid_step_bound_witness :
    (lpc_to_lsp_run [1, 10, 0] 2 0 2).2.length = 2 ∧
    ∀ c ∈ (lpc_to_lsp_run [1, 10, 0] 2 0 2).2, c ≤ (⌊(2 : ℚ) / 2⌋).toNat + 1 :=
  grid_step_bound [1, 10, 0] 2 0 2 (by norm_num)

/-- Full root-set invariant of the outer loop: processing `n` alternations
from state `s` at index `j` keeps the buffer length, adds at most `n` roots,
never raises `xl`, touches only entries `j..j+n-1`, and — when all `n`
alternations record a root — the recorded entries are strictly decreasing,
all strictly below the incoming `xl`, and the final `xl` is the last record. -/
theorem outerLoop_inv (P Q : List ℚ) (order nb : ℕ) (delta : ℚ) (fuel : ℕ)
    (hd : 0 < delta) :
    ∀ (n j : ℕ) (s : SearchState),
      (outerLoop P Q order nb delta fuel s j n).1.freq.length = s.freq.length ∧
      (outerLoop P Q order nb delta fuel s j n).1.roots ≤ s.roots + n ∧
      (outerLoop P Q order nb delta fuel s j n).1.xl ≤ s.xl ∧
      (∀ i, i < j ∨ j + n ≤ i →
        (outerLoop P Q order nb delta fuel s j n).1.freq.getD i 0 =
          s.freq.getD i 0) ∧
      ((outerLoop P Q order nb delta fuel s j n).1.roots = s.roots + n →
        j + n ≤ s.freq.length →
        (∀ i, j ≤ i → i < j + n →
          (outerLoop P Q order nb delta fuel s j n).1.freq.getD i 0 < s.xl) ∧
        (∀ i, j ≤ i → i + 1 < j + n →
          (outerLoop P Q order nb delta fuel s j n).1.freq.getD (i + 1) 0 <
            (outerLoop P Q order nb delta fuel s j n).1.freq.getD i 0) ∧
        (0 < n →
          (outerLoop P Q order nb delta fuel s j n).1.xl =
            (outerLoop P Q order nb delta fuel s j n).1.freq.getD (j + n - 1) 0)) := by
  intro n
  induction n with
  | zero =>
    intro j s
    refine ⟨rfl, by show s.roots ≤ s.roots + 0; omega, le_refl _, fun i _ => rfl,
      fun _ _ => ⟨?_, ?_, ?_⟩⟩
    · intro i h1 h2; omega
    · intro i h1 h2; omega
    · intro h0; omega
  | succ n ih =>
    intro j s
    simp only [outerLoop]
    rcases gridLoop_cases (if j % 2 = 1 then Q else P) order nb delta j hd fuel
        (cheb_poly_eva (if j % 2 = 1 then Q else P) s.xl order) s with
      ⟨hfreq, hroots, hxl⟩ | ⟨xm, hxm, hxl, hfreq, hroots⟩
    · obtain ⟨ilen, iroots, ixl, iout, ifull⟩ := ih (j + 1)
        (gridLoop (if j % 2 = 1 then Q else P) order nb delta j
          (cheb_poly_eva (if j % 2 = 1 then Q else P) s.xl order) s fuel).1
      refine ⟨by rw [ilen, hfreq], by omega, le_trans ixl hxl, ?_, ?_⟩
      · intro i hi
        rw [iout i (by omega), hfreq]
      · intro habs _
        omega
    · obtain ⟨ilen, iroots, ixl, iout, ifull⟩ := ih (j + 1)
        (gridLoop (if j % 2 = 1 then Q else P) order nb delta j
          (cheb_poly_eva (if j % 2 = 1 then Q else P) s.xl order) s fuel).1
      have hlen1 : (gridLoop (if j % 2 = 1 then Q else P) order nb delta j
          (cheb_poly_eva (if j % 2 = 1 then Q else P) s.xl order) s fuel).1.freq.length
          = s.freq.length := by rw [hfreq, List.length_set]
      refine ⟨by rw [ilen, hlen1], by omega, by rw [hxl] at ixl; exact le_trans ixl (le_of_lt hxm), ?_, ?_⟩
      · intro i hi
        rw [iout i (by omega), hfreq, getD_set_ne _ _ _ _ (by omega)]
      · intro hfull hlen
        have hroots2 : (outerLoop P Q order nb delta fuel
            (gridLoop (if j % 2 = 1 then Q else P) order nb delta j
              (cheb_poly_eva (if j % 2 = 1 then Q else P) s.xl order) s fuel).1
            (j + 1) n).1.roots =
            (gridLoop (if j % 2 = 1 then Q else P) order nb delta j
              (cheb_poly_eva (if j % 2 = 1 then Q else P) s.xl order) s fuel).1.roots
              + n := by omega
        obtain ⟨fa, fb, fc⟩ := ifull hroots2 (by rw [hlen1]; omega)
        have hj : (outerLoop P Q order nb delta fuel
            (gridLoop (if j % 2 = 1 then Q else P) order nb delta j
              (cheb_poly_eva (if j % 2 = 1 then Q else P) s.xl order) s fuel).1
            (j + 1) n).1.freq.getD j 0 = xm := by
          rw [iout j (by omega), hfreq, getD_set_self _ _ _ (by omega)]
        refine ⟨?_, ?_, ?_⟩
        · intro i h1 h2
          rcases Nat.eq_or_lt_of_le h1 with he | hlt
          · rw [← he, hj]
            exact hxm
          · have := fa i (by omega) (by omega)
            rw [hxl] at this
            exact lt_trans this hxm
        · intro i h1 h2
          rcases Nat.eq_or_lt_of_le h1 with he | hlt
          · subst he
            rw [hj]
            have := fa (j + 1) (by omega) (by omega)
            rw [hxl] at this
            exact this
          · exact fb i (by omega) (by omega)
        · intro _
          rcases Nat.eq_zero_or_pos n with hn | hn
          · subst hn
            have hone : (outerLoop P Q order nb delta fuel
                (gridLoop (if j % 2 = 1 then Q else P) order nb delta j
                  (cheb_poly_eva (if j % 2 = 1 then Q else P) s.xl order) s fuel).1
                (j + 1) 0) =
                ((gridLoop (if j % 2 = 1 then Q else P) order nb delta j
                  (cheb_poly_eva (if j % 2 = 1 then Q else P) s.xl order) s fuel).1,
                  []) := rfl
            rw [hone]
            show (gridLoop (if j % 2 = 1 then Q else P) order nb delta j
                (cheb_poly_eva (if j % 2 = 1 then Q else P) s.xl order) s fuel).1.xl
                = (gridLoop (if j % 2 = 1 then Q else P) order nb delta j
                  (cheb_poly_eva (if j % 2 = 1 then Q else P) s.xl order) s fuel).1.freq.getD (j + 1 - 1) 0
            rw [hxl, hfreq]
            rw [Nat.add_sub_cancel, getD_set_self _ _ _ (by omega)]
          · rw [fc hn]
            congr 1
            omega

end Codec2

namespace Codec2

theorem map_getD_none (l : List ℚ) (g : ℚ → Option ℝ) (i : ℕ) (h : i < l.length) :
    (l.map g).getD i none = g (l.getD i 0) := by
  rw [List.getD_eq_getElem _ _ (by rw [List.length_map]; exact h),
    List.getElem_map, List.getD_eq_getElem _ _ h]

/-- Claim C2 (amended): whenever `lpc_to_lsp` reports a full root set *and*
every recorded x-domain value lies strictly inside `(-1, 1)`, the radian
outputs are defined, strictly increasing, and lie strictly within `(0, π)`.
(Without the in-range condition the claim fails: recorded values below -1
occur, see the counterexample.) -/
theorem lsp_monotonic_of_inrange :
    ∀ (a : List ℚ) (order nb : ℕ) (delta : ℚ), 0 < delta →
      (lpc_to_lsp_x a order nb delta).2 = order →
      (∀ q ∈ (lpc_to_lsp_x a order nb delta).1, -1 < q ∧ q < 1) →
      (lpc_to_lsp_x a order nb delta).1.length = order ∧
      (∀ i, i < order →
        (lpc_to_lsp a order nb delta).1.getD i none =
          some (Real.arccos ((lpc_to_lsp_x a order nb delta).1.getD i 0)) ∧
        0 < Real.arccos ((lpc_to_lsp_x a order nb delta).1.getD i 0) ∧
        Real.arccos ((lpc_to_lsp_x a order nb delta).1.getD i 0) < Real.pi) ∧
      (∀ i, i + 1 < order →
        Real.arccos ((lpc_to_lsp_x a order nb delta).1.getD i 0) <
          Real.arccos ((lpc_to_lsp_x a order nb delta).1.getD (i + 1) 0)) := by
  intro a order nb delta hd hroots hin
  obtain ⟨ilen, -, -, -, ifull⟩ := outerLoop_inv (pPoly a order) (qPoly a order)
    order nb delta (gridFuel delta) hd order 0 ⟨1, 0, List.replicate order 0, 0⟩
  have hlen : (lpc_to_lsp_x a order nb delta).1.length = order :=
    (show (lpc_to_lsp_x a order nb delta).1.length =
        (List.replicate order (0 : ℚ)).length from ilen).trans (by simp)
  obtain ⟨-, fb, -⟩ := ifull
    (by show (outerLoop (pPoly a order) (qPoly a order) order nb delta
          (gridFuel delta) ⟨1, 0, List.replicate order 0, 0⟩ 0 order).1.roots
          = 0 + order
        rw [Nat.zero_add]
        exact hroots)
    (by simp)
  have hmem : ∀ i, i < order →
      -1 < (lpc_to_lsp_x a order nb delta).1.getD i 0 ∧
        (lpc_to_lsp_x a order nb delta).1.getD i 0 < 1 :=
    fun i hi => hin _ (getD_mem _ i (by rw [hlen]; exact hi))
  refine ⟨hlen, ?_, ?_⟩
  · intro i hi
    obtain ⟨hlo, hhi⟩ := hmem i hi
    have hsome : acosF ((lpc_to_lsp_x a order nb delta).1.getD i 0) =
        some (Real.arccos ((lpc_to_lsp_x a order nb delta).1.getD i 0)) := by
      unfold acosF
      rw [if_pos ⟨le_of_lt hlo, le_of_lt hhi⟩]
    refine ⟨?_, ?_, ?_⟩
    · show ((lpc_to_lsp_x a order nb delta).1.map acosF).getD i none = _
      rw [map_getD_none _ _ _ (by rw [hlen]; exact hi), hsome]
    · exact Real.arccos_pos.mpr (by exact_mod_cast hhi)
    · rcases lt_or_eq_of_le
          (Real.arccos_le_pi (((lpc_to_lsp_x a order nb delta).1.getD i 0 : ℚ) : ℝ)) with
        h | h
      · exact h
      · exfalso
        have h1 := Real.arccos_eq_pi.mp h
        have h2 : (-1 : ℝ) < (((lpc_to_lsp_x a order nb delta).1.getD i 0 : ℚ) : ℝ) := by
          exact_mod_cast hlo
        linarith
  · intro i hi
    have h1 := hmem i (by omega)
    have h2 := hmem (i + 1) (by omega)
    have hdec : (lpc_to_lsp_x a order nb delta).1.getD (i + 1) 0 <
        (lpc_to_lsp_x a order nb delta).1.getD i 0 := fb i (by omega) (by omega)
    exact Real.strictAntiOn_arccos
      ⟨by exact_mod_cast le_of_lt h2.1, by exact_mod_cast le_of_lt h2.2⟩
      ⟨by exact_mod_cast le_of_lt h1.1, by exact_mod_cast le_of_lt h1.2⟩
      (by exact_mod_cast hdec)

/-- Witness for the amended C2 theorem: the run on `[1, 1, 1/2]` finds both
roots, at `-1/4` and `-1/2`, strictly inside `(-1, 1)`. -/
theorem lsp_monotonic_of_inrange_witness :
    (lpc_to_lsp_x [1, 1, 1/2] 2 0 (1/2)).1.length = 2 ∧
    (∀ i, i < 2 →
      (lpc_to_lsp [1, 1, 1/2] 2 0 (1/2)).1.getD i none =
        some (Real.arccos ((lpc_to_lsp_x [1, 1, 1/2] 2 0 (1/2)).1.getD i 0)) ∧
      0 < Real.arccos ((lpc_to_lsp_x [1, 1, 1/2] 2 0 (1/2)).1.getD i 0) ∧
      Real.arccos ((lpc_to_lsp_x [1, 1, 1/2] 2 0 (1/2)).1.getD i 0) < Real.pi) ∧
    (∀ i, i + 1 < 2 →
      Real.arccos ((lpc_to_lsp_x [1, 1, 1/2] 2 0 (1/2)).1.getD i 0) <
        Real.arccos ((lpc_to_lsp_x [1, 1, 1/2] 2 0 (1/2)).1.getD (i + 1) 0)) :=
  lsp_monotonic_of_inrange [1, 1, 1/2] 2 0 (1/2) (by norm_num) (by decide) (by decide)

end Codec2

namespace Codec2

/-! ## Claim C1: the cascade over ℚ and over ℝ agree through the embedding -/

theorem getD_map_qr (l : List ℚ) (i : ℕ) :
    (l.map qr).getD i 0 = qr (l.getD i 0) := by
  rcases lt_or_le i l.length with h | h
  · rw [List.getD_eq_getElem _ _ (by rw [List.length_map]; exact h),
      List.getElem_map, List.getD_eq_getElem _ _ h]
  · rw [List.getD_eq_default _ _ (by rw [List.length_map]; exact h),
      List.getD_eq_default _ _ h]
    simp [qr]

theorem set_map_qr (l : List ℚ) (n : ℕ) (v : ℚ) :
    (l.map qr).set n (qr v) = (l.set n v).map qr :=
  List.map_set.symm

theorem stage_cast (fx : List ℚ) (s : List ℚ × ℚ × ℚ) (i : ℕ) :
    stage (fx.map qr) (castS s) i = castS (stage fx s i) := by
  obtain ⟨wp, x1, x2⟩ := s
  unfold stage castS
  dsimp only
  rw [getD_map_qr, getD_map_qr, getD_map_qr, getD_map_qr, getD_map_qr, getD_map_qr,
    set_map_qr, set_map_qr, set_map_qr, set_map_qr]
  refine congrArg₂ Prod.mk rfl (congrArg₂ Prod.mk ?_ ?_) <;>
    simp only [qr] <;> push_cast <;> ring

theorem foldl_stage_cast (fx : List ℚ) :
    ∀ (rl : List ℕ) (s : List ℚ × ℚ × ℚ),
      rl.foldl (stage (fx.map qr)) (castS s) = castS (rl.foldl (stage fx) s) := by
  intro rl
  induction rl with
  | nil => intro s; rfl
  | cons hd tl ih =>
    intro s
    rw [List.foldl_cons, List.foldl_cons, stage_cast]
    exact ih _

theorem outerStep_cast (fx : List ℚ) (order : ℕ) (s : List ℚ × ℚ × ℚ) :
    outerStep (fx.map qr) order (castS s) =
      (castS (outerStep fx order s).1, qr (outerStep fx order s).2) := by
  unfold outerStep
  rw [show (List.range (order / 2)).foldl (stage (fx.map qr)) (castS s) =
      castS ((List.range (order / 2)).foldl (stage fx) s) from foldl_stage_cast fx _ s]
  obtain ⟨wp, x1, x2⟩ := (List.range (order / 2)).foldl (stage fx) s
  unfold castS
  dsimp only
  rw [getD_map_qr, getD_map_qr, set_map_qr, set_map_qr]
  refine congrArg₂ Prod.mk ?_ ?_
  · simp [Prod.ext_iff, qr]
  · simp only [qr]
    push_cast
    ring

theorem cascadeGo_cast (fx : List ℚ) (order : ℕ) :
    ∀ (n : ℕ) (s : List ℚ × ℚ × ℚ),
      cascadeGo (fx.map qr) order (castS s) n = (cascadeGo fx order s n).map qr := by
  intro n
  induction n with
  | zero => intro s; rfl
  | succ n ih =>
    intro s
    show (outerStep (fx.map qr) order (castS s)).2 ::
        cascadeGo (fx.map qr) order (outerStep (fx.map qr) order (castS s)).1 n =
      _
    rw [outerStep_cast]
    show qr (outerStep fx order s).2 ::
        cascadeGo (fx.map qr) order (castS (outerStep fx order s).1) n = _
    rw [ih]
    rfl

theorem cascade_cast (fx : List ℚ) (order : ℕ) :
    cascade (fx.map qr) order = (cascade fx order).map qr := by
  unfold cascade
  have hinit : ((List.replicate (4 * (order / 2) + 2) (0 : ℝ)), (1 : ℝ), (1 : ℝ)) =
      castS (List.replicate (4 * (order / 2) + 2) 0, 1, 1) := by
    unfold castS
    dsimp only
    rw [List.map_replicate]
    norm_num [qr]
  rw [hinit, cascadeGo_cast]

end Codec2

namespace Codec2

theorem eval_run_E :
    lpc_to_lsp_x [1, -15759359/8000000, 12671/12800] 2 6 (1/100) =
      ([12671/12800, 6271/6400], 2) := by decide

theorem eval_recon_x :
    lsp_to_lpc_x [12671/12800, 6271/6400] 2 = [1, -25213/12800, 12671/12800] := by
  decide

/-- The reconstruction applied to the radian outputs of the counterexample
run equals the rational cascade result, embedded into ℝ. -/
theorem recon_eval :
    lsp_to_lpc [Real.arccos ((12671/12800 : ℚ) : ℝ),
        Real.arccos ((6271/6400 : ℚ) : ℝ)] 2 =
      ([1, -25213/12800, 12671/12800] : List ℚ).map qr := by
  unfold lsp_to_lpc
  have hmap : ([Real.arccos ((12671/12800 : ℚ) : ℝ),
      Real.arccos ((6271/6400 : ℚ) : ℝ)]).map Real.cos =
      ([12671/12800, 6271/6400] : List ℚ).map qr := by
    show [Real.cos (Real.arccos ((12671/12800 : ℚ) : ℝ)),
        Real.cos (Real.arccos ((6271/6400 : ℚ) : ℝ))] = _
    rw [Real.cos_arccos (by push_cast; norm_num) (by push_cast; norm_num),
      Real.cos_arccos (by push_cast; norm_num) (by push_cast; norm_num)]
    rfl
  rw [hmap, cascade_cast]
  have hc : cascade (K := ℚ) [12671/12800, 6271/6400] 2 =
      [1, -25213/12800, 12671/12800] := eval_recon_x
  rw [hc]

/-- Claim C1 (counterexample): the round trip misses the 1e-4 tolerance on a
stable filter even with `nb = 6` and `delta = 1/100`.  For the order-2 LPC
vector `[1, -15759359/8000000, 12671/12800]` (both filter-polynomial roots
strictly inside the unit circle), both bisection refinements land
`delta/2^(nb+1) - 1e-6 ≈ 7.7e-5` below the true roots, and the reconstructed
`a[1]` coefficient is off by `1234/8000000 = 1.54e-4 > 1e-4`. -/
theorem roundtrip_tolerance_counterexample :
    (∀ z : ℂ, z ^ 2 + ((-15759359/8000000 : ℝ) : ℂ) * z +
        ((12671/12800 : ℝ) : ℂ) = 0 → Complex.abs z < 1) ∧
    lpc_to_lsp_x [1, -15759359/8000000, 12671/12800] 2 6 (1/100) =
      ([12671/12800, 6271/6400], 2) ∧
    (lpc_to_lsp [1, -15759359/8000000, 12671/12800] 2 6 (1/100)).1 =
      [some (Real.arccos ((12671/12800 : ℚ) : ℝ)),
        some (Real.arccos ((6271/6400 : ℚ) : ℝ))] ∧
    ¬ (∀ i, i < 3 →
      |(lsp_to_lpc [Real.arccos ((12671/12800 : ℚ) : ℝ),
          Real.arccos ((6271/6400 : ℚ) : ℝ)] 2).getD i 0 -
        qr (([1, -15759359/8000000, 12671/12800] : List ℚ).getD i 0)| ≤ 1/10000) := by
  refine ⟨?_, eval_run_E, ?_, ?_⟩
  · intro z hz
    have hre := congrArg Complex.re hz
    have him := congrArg Complex.im hz
    simp only [pow_two, Complex.add_re, Complex.add_im, Complex.mul_re,
      Complex.mul_im, Complex.ofReal_re, Complex.ofReal_im, Complex.zero_re,
      Complex.zero_im] at hre him
    have hfact : z.im * (2 * z.re + (-15759359/8000000 : ℝ)) = 0 := by
      linear_combination him
    rcases mul_eq_zero.mp hfact with hy | hx
    · exfalso
      nlinarith [hre, sq_nonneg (2 * z.re + (-15759359/8000000 : ℝ)), hy]
    · have hxv : z.re = 15759359/16000000 := by linarith
      have habs : Complex.abs z ^ 2 = 12671/12800 := by
        rw [Complex.sq_abs, Complex.normSq_apply]
        nlinarith [hre, hxv]
      nlinarith [habs, Complex.abs.nonneg z]
  · show ((lpc_to_lsp_x [1, -15759359/8000000, 12671/12800] 2 6 (1/100)).1).map
        acosF = _
    rw [eval_run_E]
    show [acosF (12671/12800), acosF (6271/6400)] = _
    rw [show acosF (12671/12800) = some (Real.arccos ((12671/12800 : ℚ) : ℝ)) from
        by unfold acosF; rw [if_pos (by norm_num)],
      show acosF (6271/6400) = some (Real.arccos ((6271/6400 : ℚ) : ℝ)) from
        by unfold acosF; rw [if_pos (by norm_num)]]
  · intro hall
    have h1 := hall 1 (by omega)
    rw [recon_eval] at h1
    have he : ((([1, -25213/12800, 12671/12800] : List ℚ).map qr).getD 1 0 -
        qr (([1, -15759359/8000000, 12671/12800] : List ℚ).getD 1 0)) =
        ((1234/8000000 : ℚ) : ℝ) := by
      show qr (-25213/12800) - qr (-15759359/8000000) = _
      simp only [qr]
      push_cast
      norm_num
    rw [he] at h1
    have hgt : (1/10000 : ℝ) < ((1234/8000000 : ℚ) : ℝ) := by push_cast; norm_num
    have habs := le_abs_self (((1234/8000000 : ℚ) : ℝ))
    linarith

end Codec2

namespace Codec2

/-- Claim C1 (amended): with `nb = 6` and `delta = 1/100` the round trip on
the exhibited stable LPC vector reproduces it only within
`2·delta/2^(nb+1) ≈ 1.56e-4`, i.e. entrywise within 2e-4 but not within 1e-4:
the x-domain root error of the bisection can reach `delta/2^(nb+1)` per root,
and the two errors add in coefficient 1. -/
theorem roundtrip_within_two_em4 :
    ∀ i, i < 3 →
      |(lsp_to_lpc [Real.arccos ((12671/12800 : ℚ) : ℝ),
          Real.arccos ((6271/6400 : ℚ) : ℝ)] 2).getD i 0 -
        qr (([1, -15759359/8000000, 12671/12800] : List ℚ).getD i 0)| ≤ 2/10000 := by
  intro i hi
  rw [recon_eval]
  interval_cases i
  · show |qr 1 - qr 1| ≤ _
    norm_num
  · show |qr (-25213/12800) - qr (-15759359/8000000)| ≤ _
    simp only [qr]
    rw [abs_le]
    constructor <;> push_cast <;> norm_num
  · show |qr (12671/12800) - qr (12671/12800)| ≤ _
    norm_num

/-- Witness for the amended C1 theorem at coefficient index 1. -/
theorem roundtrip_within_two_em4_witness :
    |(lsp_to_lpc [Real.arccos ((12671/12800 : ℚ) : ℝ),
        Real.arccos ((6271/6400 : ℚ) : ℝ)] 2).getD 1 0 -
      qr (([1, -15759359/8000000, 12671/12800] : List ℚ).getD 1 0)| ≤ 2/10000 :=
  roundtrip_within_two_em4 1 (by omega)

end Codec2
